import Mathlib

/-
Formal model of the Synapse Memory Persistence Layer.

The definitions below are a shallow embedding of the Python source:
  * `src/synapse/database/sqlite_impl.py`  (SQLiteDatabase)
  * `src/synapse/database/duckdb_impl.py`  (DuckDBDatabase)
  * `src/synapse/database/mariadb_impl.py` (MariaDBDatabase)
  * `src/synapse/database/__init__.py`     (create_database)
  * `src/synapse/services/memory_server.py` / `mcp_instance.py` (facade tools)

The live table `memories` and the append-only table `memory_history` are
modelled as lists of rows in insertion order (matching autoincrement ids).
Timestamps are naturals supplied by the caller (`now` models
CURRENT_TIMESTAMP).  JSON serialization of the metadata dict is modelled as
the identity on association lists (json.dumps / json.loads round-trip).
-/

namespace Synapse

/-- A metadata value: the model only needs strings and numbers. -/
inductive MetaVal where
  | s (v : String)
  | n (v : Nat)
deriving Repr, DecidableEq

/-- A metadata dictionary, as an association list in insertion order. -/
abbrev MetaMap := List (String × MetaVal)

/-- Python `metadata_json = None; if metadata: metadata_json = json.dumps(metadata)`:
both `None` and the empty dict (falsy) serialize to NULL. -/
def metadataJson : Option MetaMap → Option MetaMap
  | none => none
  | some l => if l.isEmpty then none else some l

/-- A row of the live `memories` table
(filename, content, metadata, version, created_at, updated_at). -/
structure MemoryRow where
  filename : String
  content : String
  metadata : Option MetaMap
  version : Nat
  created_at : Nat
  updated_at : Nat
deriving Repr, DecidableEq

/-- A row of the append-only `memory_history` table
(filename, content, version, created_at, metadata). -/
structure HistoryRow where
  filename : String
  content : String
  version : Nat
  created_at : Nat
  metadata : Option MetaMap
deriving Repr, DecidableEq

/-- The database state: both tables, rows in insertion (id) order. -/
structure DBState where
  memories : List MemoryRow
  history : List HistoryRow
deriving Repr, DecidableEq

/-- The state right after `create_tables` on a fresh database. -/
def dbInit : DBState := ⟨[], []⟩

/-- `SELECT id, version FROM memories WHERE filename = ?` + `fetchone()`. -/
def find_mem (f : String) (s : DBState) : Option MemoryRow :=
  s.memories.find? (fun m => m.filename == f)

/-- `save_memory` (SQLiteDatabase.save_memory; DuckDB and MariaDB run the same
statement sequence).  If a row for `filename` exists, the current row is
copied into `memory_history` (INSERT ... SELECT) and the live row is updated
with the new content, metadata, `updated_at` and `version = old + 1`;
otherwise a fresh row with version 1 is inserted.  The Python function
returns `True` on success; failures are modelled separately below. -/
def save_memory (now : Nat) (filename content : String) (metadata : Option MetaMap)
    (s : DBState) : DBState :=
  let mj := metadataJson metadata
  match find_mem filename s with
  | some row =>
    { memories := s.memories.map (fun m =>
        if m.filename == filename then
          { m with content := content, metadata := mj, updated_at := now,
                   version := row.version + 1 }
        else m),
      history := s.history ++
        (s.memories.filter (fun m => m.filename == filename)).map (fun m =>
          ⟨m.filename, m.content, m.version, now, m.metadata⟩) }
  | none =>
    { memories := s.memories ++ [⟨filename, content, mj, 1, now, now⟩],
      history := s.history }

/-- `load_memory`: `SELECT content FROM memories WHERE filename = ?`. -/
def load_memory (f : String) (s : DBState) : Option String :=
  (find_mem f s).map (fun m => m.content)

/-- Lexicographic comparison of character lists by codepoint; on UTF-8 data
this is the byte order SQLite's BINARY collation applies in `ORDER BY`. -/
def lexLe : List Char → List Char → Bool
  | [], _ => true
  | _ :: _, [] => false
  | a :: as, b :: bs =>
    if a.toNat < b.toNat then true
    else if b.toNat < a.toNat then false
    else lexLe as bs

/-- Lexicographic string comparison (SQLite BINARY collation). -/
def strLe (a b : String) : Bool := lexLe a.data b.data

/-- Sorting relation used by `ORDER BY filename`. -/
def byFilename (a b : MemoryRow) : Prop := strLe a.filename b.filename = true

instance : DecidableRel byFilename :=
  fun a b => inferInstanceAs (Decidable (strLe a.filename b.filename = true))

/-- `list_memories`: `SELECT filename FROM memories ORDER BY filename`. -/
def list_memories (s : DBState) : List String :=
  (s.memories.insertionSort byFilename).map (fun m => m.filename)

/-- `delete_memory` (SQLite/MariaDB form): delete the history rows, delete the
live rows, return whether the last DELETE (on `memories`) affected a row. -/
def delete_memory (f : String) (s : DBState) : DBState × Bool :=
  ({ memories := s.memories.filter (fun m => m.filename != f),
     history := s.history.filter (fun h => h.filename != f) },
   decide (0 < s.memories.countP (fun m => m.filename == f)))

/-- `DuckDBDatabase.delete_memory`: deletes history, counts the matching live
rows before and after the live DELETE, and returns `count_before > count_after`. -/
def duckdb_delete_memory (f : String) (s : DBState) : DBState × Bool :=
  let count_before := s.memories.countP (fun m => m.filename == f)
  let memories2 := s.memories.filter (fun m => m.filename != f)
  let count_after := memories2.countP (fun m => m.filename == f)
  ({ memories := memories2,
     history := s.history.filter (fun h => h.filename != f) },
   decide (count_after < count_before))

/-- Python `dict.update`: keys already in `base` keep their position but take
the updated value; new keys are appended in `upd` order. -/
def dict_update (base upd : MetaMap) : MetaMap :=
  (base.map (fun kv =>
    match upd.find? (fun kv2 => kv2.1 == kv.1) with
    | some kv2 => kv2
    | none => kv)) ++
  upd.filter (fun kv2 => !(base.any (fun kv => kv.1 == kv2.1)))

/-- `get_memory_metadata`: parse the stored metadata (NULL gives `{}`) and
`update` it with `created_at`, `updated_at` and `version` from the live row. -/
def get_memory_metadata (f : String) (s : DBState) : Option MetaMap :=
  (find_mem f s).map (fun row =>
    let base := match row.metadata with | some l => l | none => []
    dict_update base
      [("created_at", .n row.created_at),
       ("updated_at", .n row.updated_at),
       ("version", .n row.version)])

/-- Lowercase an ASCII letter; other characters are unchanged (the folding
SQLite LIKE applies by default). -/
def asciiLower (c : Char) : Char :=
  if 'A' ≤ c ∧ c ≤ 'Z' then Char.ofNat (c.toNat + 32) else c

/-- All suffixes of a character list, longest first (the last is `[]`). -/
def sufList : List Char → List (List Char)
  | [] => [[]]
  | c :: cs => (c :: cs) :: sufList cs

/-- SQL LIKE pattern matching as SQLite evaluates it by default: `%` matches
any sequence, `_` any single character, and ASCII letters compare
case-insensitively. -/
def likeMatch : List Char → List Char → Bool
  | [], cs => cs.isEmpty
  | p :: ps, cs =>
    if p == '%' then (sufList cs).any (fun suf => likeMatch ps suf)
    else
      match cs with
      | [] => false
      | c :: cs2 => (p == '_' || asciiLower p == asciiLower c) && likeMatch ps cs2

/-- The WHERE clause of `search_memories`: `content LIKE '%' || query || '%'`. -/
def like_contains (query content : String) : Bool :=
  likeMatch ('%' :: (query.data ++ ['%'])) content.data

/-- `search_memories`: rows whose content LIKE-matches `%query%`, projected to
(filename, content), `ORDER BY filename`. -/
def search_memories (query : String) (s : DBState) : List (String × String) :=
  ((s.memories.filter (fun m => like_contains query m.content)).insertionSort
      byFilename).map (fun m => (m.filename, m.content))

/-- Descending-version relation used by `ORDER BY version DESC`. -/
def byVersionDesc (a b : HistoryRow) : Prop := b.version ≤ a.version

instance : DecidableRel byVersionDesc :=
  fun a b => inferInstanceAs (Decidable (b.version ≤ a.version))

/-- `get_memory_history`: history rows of `filename`, `ORDER BY version DESC
LIMIT ?`, each projected to (version, created_at, parsed metadata). -/
def get_memory_history (f : String) (limit : Nat) (s : DBState) :
    List (Nat × Nat × MetaMap) :=
  (((s.history.filter (fun h => h.filename == f)).insertionSort
      byVersionDesc).take limit).map (fun h =>
    (h.version, h.created_at, match h.metadata with | some l => l | none => []))

instance {ε α : Type} [DecidableEq ε] [DecidableEq α] : DecidableEq (Except ε α) := fun a b =>
  match a, b with
  | .ok x, .ok y =>
    if h : x = y then .isTrue (by rw [h]) else .isFalse (fun he => by cases he; exact h rfl)
  | .error x, .error y =>
    if h : x = y then .isTrue (by rw [h]) else .isFalse (fun he => by cases he; exact h rfl)
  | .ok _, .error _ => .isFalse (fun he => by cases he)
  | .error _, .ok _ => .isFalse (fun he => by cases he)

/-- A database connection: the durable (committed) state and the state the
connection's open transaction sees (pending).  Statements mutate `pending`;
`commit` publishes it; `rollback` restores it from `committed`. -/
structure Conn where
  committed : DBState
  pending : DBState
deriving Repr, DecidableEq

/-- `conn.rollback()`. -/
def rollback (c : Conn) : Conn := ⟨c.committed, c.committed⟩

/-- `conn.commit()`. -/
def commit (c : Conn) : Conn := ⟨c.pending, c.pending⟩

/-- The uncommitted effect of the history snapshot INSERT of `save_memory`. -/
def insertHistoryStmt (now : Nat) (filename : String) (s : DBState) : DBState :=
  { s with history := s.history ++
      (s.memories.filter (fun m => m.filename == filename)).map (fun m =>
        ⟨m.filename, m.content, m.version, now, m.metadata⟩) }

/-- The uncommitted effect of the live-row UPDATE of `save_memory`. -/
def updateLiveStmt (now : Nat) (filename content : String) (mj : Option MetaMap)
    (oldVersion : Nat) (s : DBState) : DBState :=
  { s with memories := s.memories.map (fun m =>
      if m.filename == filename then
        { m with content := content, metadata := mj, updated_at := now,
                 version := oldVersion + 1 }
      else m) }

/-- The uncommitted effect of the fresh-row INSERT of `save_memory`. -/
def insertLiveStmt (now : Nat) (filename content : String) (mj : Option MetaMap)
    (s : DBState) : DBState :=
  { s with memories := s.memories ++ [⟨filename, content, mj, 1, now, now⟩] }

/-- `SQLiteDatabase.save_memory` with fault injection.  `failAt = some k`
makes the k-th executed statement (0 = SELECT, then INSERT/UPDATE, last =
COMMIT) raise before taking effect.  The sqlite handler rolls the
connection back and re-raises (`.error ()`). -/
def sqlite_save_memory_f (failAt : Option Nat) (now : Nat)
    (filename content : String) (metadata : Option MetaMap) (c : Conn) :
    Conn × Except Unit Bool :=
  let mj := metadataJson metadata
  if failAt == some 0 then (rollback c, .error ()) else
  match find_mem filename c.pending with
  | some row =>
    if failAt == some 1 then (rollback c, .error ()) else
    let p1 := insertHistoryStmt now filename c.pending
    if failAt == some 2 then (rollback ⟨c.committed, p1⟩, .error ()) else
    let p2 := updateLiveStmt now filename content mj row.version p1
    if failAt == some 3 then (rollback ⟨c.committed, p2⟩, .error ()) else
    (commit ⟨c.committed, p2⟩, .ok true)
  | none =>
    if failAt == some 1 then (rollback c, .error ()) else
    let p1 := insertLiveStmt now filename content mj c.pending
    if failAt == some 2 then (rollback ⟨c.committed, p1⟩, .error ()) else
    (commit ⟨c.committed, p1⟩, .ok true)

/-- `MariaDBDatabase.save_memory` with fault injection: the same statement
sequence, but its `except MySQLError` handler only re-raises — it never calls
`rollback`, so the statements already executed stay pending on the
connection. -/
def mariadb_save_memory_f (failAt : Option Nat) (now : Nat)
    (filename content : String) (metadata : Option MetaMap) (c : Conn) :
    Conn × Except Unit Bool :=
  let mj := metadataJson metadata
  if failAt == some 0 then (c, .error ()) else
  match find_mem filename c.pending with
  | some row =>
    if failAt == some 1 then (c, .error ()) else
    let p1 := insertHistoryStmt now filename c.pending
    if failAt == some 2 then (⟨c.committed, p1⟩, .error ()) else
    let p2 := updateLiveStmt now filename content mj row.version p1
    if failAt == some 3 then (⟨c.committed, p2⟩, .error ()) else
    (commit ⟨c.committed, p2⟩, .ok true)
  | none =>
    if failAt == some 1 then (c, .error ()) else
    let p1 := insertLiveStmt now filename content mj c.pending
    if failAt == some 2 then (⟨c.committed, p1⟩, .error ()) else
    (commit ⟨c.committed, p1⟩, .ok true)

/-- An adapter operation (the five operations claim C3 quantifies over). -/
inductive Op where
  | save (now : Nat) (f c : String) (m : Option MetaMap)
  | delete (f : String)
  | load (f : String)
  | search (q : String)
  | history (f : String) (limit : Nat)
deriving Repr, DecidableEq

/-- The state after one adapter operation.  `load`, `search` and
`get_memory_history` run read-only SQL and leave the tables unchanged. -/
def exec_op (o : Op) (s : DBState) : DBState :=
  match o with
  | .save now f c m => save_memory now f c m s
  | .delete f => (delete_memory f s).1
  | .load _ => s
  | .search _ => s
  | .history _ _ => s

/-- The state after a sequence of adapter operations. -/
def exec_trace (ops : List Op) (s : DBState) : DBState :=
  ops.foldl (fun s o => exec_op o s) s

/-- The concrete backend classes the factory can instantiate. -/
inductive DbKind where
  | sqlite
  | duckdb
  | mariadb
deriving Repr, DecidableEq

/-- The error raised by the factory for an unsupported backend type. -/
inductive FactoryError where
  | configuration
deriving Repr, DecidableEq

/-- `db_config.get("type", "duckdb")`. -/
def configDbType (t : Option String) : String := t.getD "duckdb"

/-- `create_database` (database/__init__.py): dispatch on the configured type
string; anything outside {sqlite, duckdb, mariadb, mysql} raises
`ConfigurationError`. -/
def create_database (dbType : String) : Except FactoryError DbKind :=
  if dbType == "sqlite" then .ok .sqlite
  else if dbType == "duckdb" then .ok .duckdb
  else if dbType == "mariadb" || dbType == "mysql" then .ok .mariadb
  else .error .configuration

/-- The Filesystem Mirror directory: filename → raw content. -/
abbrev FS := List (String × String)

/-- Modelled from the spec: `MemoryFileSystem.read_file` lives in
`synapse/utils/helpers.py`, which is not part of the sources; per spec §4.3
the mirror is a flat key→blob store with `read(filename) -> content | absent`. -/
def fs_read_file (fs : FS) (f : String) : Option String :=
  (fs.find? (fun kv => kv.1 == f)).map (fun kv => kv.2)

/-- The Synapse exception kinds relevant to the facade. -/
inductive SynapseExc where
  | memoryNotFound
  | storageFault
deriving Repr, DecidableEq

/-- What a facade tool call produces: an ordinary return value, or a raised
exception. -/
inductive ReadOutcome where
  | value (s : String)
  | raised (e : SynapseExc)
deriving Repr, DecidableEq

/-- The string the facade returns when both tiers miss:
`f"Memory file '{file_name}' not found"`. -/
def notFoundMessage (f : String) : String :=
  "Memory file \x27" ++ f ++ "\x27 not found"

/-- `read_memory` (memory_server.py / mcp_instance.py): database first; on a
miss read the filesystem mirror and, if found there, `save_memory` the content
(sync-back) before returning it; if both tiers miss, return the not-found
message string.  Every branch returns an ordinary string value. -/
def read_memory (db : DBState) (fs : FS) (f : String) (now : Nat) :
    DBState × ReadOutcome :=
  match load_memory f db with
  | some content => (db, .value content)
  | none =>
    match fs_read_file fs f with
    | some content => (save_memory now f content none db, .value content)
    | none => (db, .value (notFoundMessage f))

/-- Spec-side definition (for comparison with the code): `q` occurs in `s` as
a case-sensitive contiguous substring. -/
def spec_substr (q : List Char) : List Char → Bool
  | [] => q.isEmpty
  | c :: cs => q.isPrefixOf (c :: cs) || spec_substr q cs

/-- Spec-side definition: case-sensitive substring containment on strings. -/
def spec_contains (content query : String) : Bool :=
  spec_substr query.data content.data

/-- The UNIQUE constraint on `memories.filename`. -/
def uniqueFilenames (s : DBState) : Prop :=
  List.Pairwise (fun a b => a.filename ≠ b.filename) s.memories

/-- The spec's invariant (§3): for every filename present in the live table,
its current version is strictly greater than every version recorded for that
filename in `memory_history`. -/
def versionInvariant (s : DBState) : Prop :=
  ∀ m ∈ s.memories, ∀ h ∈ s.history, h.filename = m.filename → h.version < m.version

/-- The inductive well-formedness the operations maintain: live filenames are
unique, and every history row is dominated by a live row of the same filename
with a strictly greater version. -/
def WF (s : DBState) : Prop :=
  uniqueFilenames s ∧
  ∀ h ∈ s.history, ∃ m ∈ s.memories, m.filename = h.filename ∧ h.version < m.version

/-- The live row's version, if one exists. -/
def mem_version (f : String) (s : DBState) : Option Nat :=
  (find_mem f s).map (fun m => m.version)

end Synapse

namespace Synapse

theorem lexLe_total (as bs : List Char) : lexLe as bs = true ∨ lexLe bs as = true := by
  induction as generalizing bs with
  | nil => left; rfl
  | cons a as ih =>
    cases bs with
    | nil => right; rfl
    | cons b bs =>
      rcases Nat.lt_trichotomy a.toNat b.toNat with h | h | h
      · left; simp [lexLe, h]
      · have hne : ¬ a.toNat < b.toNat := by omega
        have hne2 : ¬ b.toNat < a.toNat := by omega
        rcases ih bs with h2 | h2
        · left; simp [lexLe, hne, hne2, h2]
        · right; simp [lexLe, hne, hne2, h2]
      · right; simp [lexLe, h]

theorem lexLe_head {x y : Char} {xs ys : List Char}
    (h : lexLe (x :: xs) (y :: ys) = true) : x.toNat ≤ y.toNat := by
  by_cases hxy : x.toNat < y.toNat
  · omega
  · by_cases hyx : y.toNat < x.toNat
    · simp [lexLe, hxy, hyx] at h
    · omega

theorem lexLe_trans {as bs cs : List Char} (h1 : lexLe as bs = true)
    (h2 : lexLe bs cs = true) : lexLe as cs = true := by
  induction as generalizing bs cs with
  | nil => rfl
  | cons a as ih =>
    cases bs with
    | nil => simp [lexLe] at h1
    | cons b bs =>
      cases cs with
      | nil => simp [lexLe] at h2
      | cons c cs =>
        have hab := lexLe_head h1
        have hbc := lexLe_head h2
        by_cases hac : a.toNat < c.toNat
        · simp [lexLe, hac]
        · have e1 : ¬ a.toNat < b.toNat := by omega
          have e2 : ¬ b.toNat < a.toNat := by omega
          have e3 : ¬ b.toNat < c.toNat := by omega
          have e4 : ¬ c.toNat < b.toNat := by omega
          have h1r : lexLe as bs = true := by simpa [lexLe, e1, e2] using h1
          have h2r : lexLe bs cs = true := by simpa [lexLe, e3, e4] using h2
          have e5 : ¬ c.toNat < a.toNat := by omega
          simpa [lexLe, hac, e5] using ih h1r h2r

instance : IsTotal MemoryRow byFilename :=
  ⟨fun a b => lexLe_total a.filename.data b.filename.data⟩

instance : IsTrans MemoryRow byFilename :=
  ⟨fun _ _ _ h1 h2 => lexLe_trans h1 h2⟩

theorem find_mem_none {f : String} {s : DBState} (h : find_mem f s = none) :
    ∀ m ∈ s.memories, m.filename ≠ f := by
  intro m hm
  have := List.find?_eq_none.mp h m hm
  simpa using this

theorem find_mem_some {f : String} {s : DBState} {row : MemoryRow}
    (h : find_mem f s = some row) : row ∈ s.memories ∧ row.filename = f := by
  refine ⟨List.mem_of_find?_eq_some h, ?_⟩
  have := List.find?_some h
  simpa using this

theorem filter_eq_nil_of_find_none {f : String} {s : DBState}
    (h : find_mem f s = none) :
    s.memories.filter (fun m => m.filename == f) = [] := by
  rw [List.filter_eq_nil_iff]
  intro m hm
  simpa using find_mem_none h m hm

/-- With unique filenames, the rows matching `filename = f` are exactly the
row `find?` returns. -/
theorem filter_of_unique {f : String} {l : List MemoryRow} {row : MemoryRow}
    (hu : List.Pairwise (fun a b => a.filename ≠ b.filename) l)
    (hf : l.find? (fun m => m.filename == f) = some row) :
    l.filter (fun m => m.filename == f) = [row] := by
  induction l with
  | nil => simp at hf
  | cons x xs ih =>
    by_cases hx : x.filename = f
    · have hrow : row = x := by
        simp [hx] at hf
        exact hf.symm
      subst hrow
      have hrest : xs.filter (fun m => m.filename == f) = [] := by
        rw [List.filter_eq_nil_iff]
        intro m hm
        have := (List.pairwise_cons.mp hu).1 m hm
        simp only [hx] at this
        simpa using this.symm
      simp [List.filter_cons, hx, hrest]
    · have hbeq : (x.filename == f) = false := beq_eq_false_iff_ne.mpr hx
      simp only [List.find?_cons, hbeq] at hf
      have := ih (List.pairwise_cons.mp hu).2 hf
      simp [List.filter_cons, hx, this]

/-- With unique filenames, two live rows with the same filename coincide. -/
theorem unique_mem_eq {l : List MemoryRow} {m m2 : MemoryRow}
    (hu : List.Pairwise (fun a b => a.filename ≠ b.filename) l)
    (h1 : m ∈ l) (h2 : m2 ∈ l) (hf : m.filename = m2.filename) : m = m2 := by
  induction l with
  | nil => simp at h1
  | cons x xs ih =>
    rcases List.pairwise_cons.mp hu with ⟨hx, hxs⟩
    rcases List.mem_cons.mp h1 with he1 | h1
    · rcases List.mem_cons.mp h2 with he2 | h2
      · rw [he1, he2]
      · exact absurd hf (he1 ▸ hx m2 h2)
    · rcases List.mem_cons.mp h2 with he2 | h2
      · exact absurd hf.symm (he2 ▸ hx m h1)
      · exact ih hxs h1 h2

theorem find?_append_of_none {α : Type} {p : α → Bool} {l1 l2 : List α}
    (h : l1.find? p = none) : (l1 ++ l2).find? p = l2.find? p := by
  simp [List.find?_append, h]

/-- `find?` on a filename-preserving row update commutes with the update. -/
theorem find?_map_preserved {g : MemoryRow → MemoryRow}
    (hg : ∀ m, (g m).filename = m.filename) (f : String) (l : List MemoryRow) :
    (l.map g).find? (fun m => m.filename == f) =
      (l.find? (fun m => m.filename == f)).map g := by
  induction l with
  | nil => simp
  | cons x xs ih =>
    by_cases hx : x.filename = f
    · simp [hg x, hx]
    · have h1 : ((g x).filename == f) = false := beq_eq_false_iff_ne.mpr (by rw [hg x]; exact hx)
      have h2 : (x.filename == f) = false := beq_eq_false_iff_ne.mpr hx
      simp only [List.map_cons, List.find?_cons, h1, h2]
      exact ih

/-- `filter` by filename on a filename-preserving row update commutes. -/
theorem filter_map_preserved {g : MemoryRow → MemoryRow}
    (hg : ∀ m, (g m).filename = m.filename) (f : String) (l : List MemoryRow) :
    (l.map g).filter (fun m => m.filename == f) =
      (l.filter (fun m => m.filename == f)).map g := by
  induction l with
  | nil => simp
  | cons x xs ih =>
    by_cases hx : x.filename = f
    · simp [List.filter_cons, hg x, hx, ih]
    · have h1 : ¬ (g x).filename = f := by rw [hg x]; exact hx
      simp [List.filter_cons, hg x, hx, h1, ih]

theorem WF_save (now : Nat) (f c : String) (md : Option MetaMap) {s : DBState}
    (h : WF s) : WF (save_memory now f c md s) := by
  rcases h with ⟨hu, hh⟩
  cases hfm : find_mem f s with
  | none =>
    constructor
    · unfold uniqueFilenames at hu ⊢
      simp only [save_memory, hfm]
      rw [List.pairwise_append]
      refine ⟨hu, by simp, ?_⟩
      intro a ha b hb
      simp only [List.mem_singleton] at hb
      subst hb
      exact find_mem_none hfm a ha
    · intro h2 hh2
      simp only [save_memory, hfm] at hh2 ⊢
      obtain ⟨m2, hm2, hfn, hver⟩ := hh h2 hh2
      exact ⟨m2, List.mem_append_left _ hm2, hfn, hver⟩
  | some row =>
    obtain ⟨hrowmem, hrowfn⟩ := find_mem_some hfm
    have hfilter := filter_of_unique hu hfm
    constructor
    · unfold uniqueFilenames at hu ⊢
      simp only [save_memory, hfm]
      rw [List.pairwise_map]
      refine hu.imp ?_
      intro a b hab
      by_cases ha : a.filename == f <;> by_cases hb2 : b.filename == f <;>
        simpa [ha, hb2] using hab
    · intro h2 hh2
      simp only [save_memory, hfm] at hh2 ⊢
      rw [List.mem_append] at hh2
      rcases hh2 with hh2 | hh2
      · obtain ⟨m2, hm2, hfn, hver⟩ := hh h2 hh2
        by_cases hm2f : m2.filename = f
        · have hm2row : m2 = row := unique_mem_eq hu hm2 hrowmem (hm2f.trans hrowfn.symm)
          subst hm2row
          refine ⟨_, List.mem_map_of_mem _ hm2, ?_⟩
          simp only [beq_iff_eq, hm2f, if_true]
          exact ⟨hm2f.symm.trans hfn, by omega⟩
        · refine ⟨_, List.mem_map_of_mem _ hm2, ?_⟩
          simp only [beq_iff_eq, hm2f, if_false]
          exact ⟨hfn, hver⟩
      · rw [hfilter] at hh2
        simp only [List.map_cons, List.map_nil, List.mem_singleton] at hh2
        subst hh2
        refine ⟨_, List.mem_map_of_mem _ hrowmem, ?_⟩
        simp only [beq_iff_eq, hrowfn, if_true]
        exact ⟨trivial, by omega⟩

theorem WF_delete (f : String) {s : DBState} (h : WF s) : WF (delete_memory f s).1 := by
  rcases h with ⟨hu, hh⟩
  constructor
  · exact List.Pairwise.filter _ hu
  · intro h2 hh2
    simp only [delete_memory] at hh2 ⊢
    rw [List.mem_filter] at hh2
    obtain ⟨m2, hm2, hfn, hver⟩ := hh h2 hh2.1
    refine ⟨m2, List.mem_filter.mpr ⟨hm2, ?_⟩, hfn, hver⟩
    have : h2.filename ≠ f := by simpa using hh2.2
    rw [← hfn] at this
    simpa using this

theorem WF_exec_op (o : Op) {s : DBState} (h : WF s) : WF (exec_op o s) := by
  cases o with
  | save now f c m => exact WF_save now f c m h
  | delete f => exact WF_delete f h
  | load f => exact h
  | search q => exact h
  | history f limit => exact h

theorem WF_dbInit : WF dbInit := by
  constructor
  · exact List.Pairwise.nil
  · intro h2 hh2
    simp [dbInit] at hh2

theorem WF_exec_trace (ops : List Op) {s : DBState} (h : WF s) :
    WF (exec_trace ops s) := by
  induction ops generalizing s with
  | nil => exact h
  | cons o ops ih =>
    have : exec_trace (o :: ops) s = exec_trace ops (exec_op o s) := rfl
    rw [this]
    exact ih (WF_exec_op o h)

theorem WF_versionInvariant {s : DBState} (h : WF s) : versionInvariant s := by
  intro m hm h2 hh2 hfn
  obtain ⟨m2, hm2, hfn2, hver⟩ := h.2 h2 hh2
  have : m2 = m := unique_mem_eq h.1 hm2 hm (hfn2.trans hfn)
  rw [← this]
  exact hver

/-- C3: the well-formedness `WF` (unique live filenames, every history row
dominated by a live row of the same filename with a strictly greater version)
is preserved by every adapter operation — `save_memory`, `delete_memory`, and
the read-only `load`/`search`/`history` — and consequently on every state
reachable from a fresh database the spec's invariant holds: for every
filename in the live `memories` table, its current version is strictly
greater than every version recorded for it in `memory_history`. -/
theorem every_op_preserves_version_invariant :
    (∀ (s : DBState) (o : Op), WF s → WF (exec_op o s)) ∧
    (∀ ops : List Op, versionInvariant (exec_trace ops dbInit)) :=
  ⟨fun _ o h => WF_exec_op o h,
   fun ops => WF_versionInvariant (WF_exec_trace ops WF_dbInit)⟩

/-- Witness for C3: a concrete two-save trace on `a.md` keeps the invariant. -/
theorem every_op_preserves_version_invariant_witness :
    versionInvariant
      (exec_trace [Op.save 0 "a.md" "hello" none, Op.save 1 "a.md" "world" none] dbInit) :=
  every_op_preserves_version_invariant.2
    [Op.save 0 "a.md" "hello" none, Op.save 1 "a.md" "world" none]

theorem upd_filename (f c : String) (mj : Option MetaMap) (now v : Nat) :
    ∀ m : MemoryRow,
      ((fun m : MemoryRow =>
        if m.filename == f then
          { m with content := c, metadata := mj, updated_at := now, version := v }
        else m) m).filename = m.filename := by
  intro m
  by_cases h : m.filename == f <;> simp [h]

theorem find_mem_save_fresh {f : String} {s : DBState}
    (hfm : find_mem f s = none) (now : Nat) (c : String) (md : Option MetaMap) :
    find_mem f (save_memory now f c md s) =
      some ⟨f, c, metadataJson md, 1, now, now⟩ := by
  have hfm2 : s.memories.find? (fun m => m.filename == f) = none := hfm
  simp only [save_memory, find_mem, hfm2]
  rw [find?_append_of_none hfm2]
  simp

theorem find_mem_save_update {f : String} {s : DBState} {row : MemoryRow}
    (hfm : find_mem f s = some row) (now : Nat) (c : String) (md : Option MetaMap) :
    find_mem f (save_memory now f c md s) =
      some { row with content := c, metadata := metadataJson md, updated_at := now,
                      version := row.version + 1 } := by
  have hfm2 : s.memories.find? (fun m => m.filename == f) = some row := hfm
  simp only [save_memory, find_mem, hfm2]
  rw [find?_map_preserved (upd_filename f c (metadataJson md) now (row.version + 1)) f]
  rw [hfm2]
  have hrowfn : row.filename = f := (find_mem_some hfm).2
  simp [hrowfn]

theorem save_history_fresh {f : String} {s : DBState}
    (hfm : find_mem f s = none) (now : Nat) (c : String) (md : Option MetaMap) :
    (save_memory now f c md s).history = s.history := by
  have hfm2 : s.memories.find? (fun m => m.filename == f) = none := hfm
  simp [save_memory, find_mem, hfm2]

theorem save_history_update {f : String} {s : DBState} {row : MemoryRow}
    (hfm : find_mem f s = some row) (hu : uniqueFilenames s)
    (now : Nat) (c : String) (md : Option MetaMap) :
    (save_memory now f c md s).history =
      s.history ++ [⟨row.filename, row.content, row.version, now, row.metadata⟩] := by
  have hfm2 : s.memories.find? (fun m => m.filename == f) = some row := hfm
  simp only [save_memory, find_mem, hfm2]
  rw [filter_of_unique hu hfm]
  simp

theorem save_memories_fresh {f : String} {s : DBState}
    (hfm : find_mem f s = none) (now : Nat) (c : String) (md : Option MetaMap) :
    (save_memory now f c md s).memories =
      s.memories ++ [⟨f, c, metadataJson md, 1, now, now⟩] := by
  have hfm2 : s.memories.find? (fun m => m.filename == f) = none := hfm
  simp [save_memory, find_mem, hfm2]

/-- For every history row of `f`, WF bounds its version by the live version. -/
theorem WF_history_version_lt {f : String} {s : DBState} {row : MemoryRow}
    (hwf : WF s) (hfm : find_mem f s = some row) :
    ∀ h ∈ s.history, h.filename = f → h.version < row.version := by
  intro h2 hh2 hfn
  obtain ⟨m2, hm2, hfn2, hver⟩ := hwf.2 h2 hh2
  obtain ⟨hrowmem, hrowfn⟩ := find_mem_some hfm
  have : m2 = row := unique_mem_eq hwf.1 hm2 hrowmem (by rw [hfn2, hfn, hrowfn])
  rw [← this]
  exact hver

/-- C1: from any well-formed state, saving `c1` then `c2` under the same
filename makes `load_memory` return `c2`, bumps the stored version by exactly
one, and leaves exactly one `memory_history` row holding content `c1` under
the version the file had before the second save. -/
theorem save_save_version_and_history (s : DBState) (f c1 c2 : String)
    (m1 m2 : Option MetaMap) (t1 t2 : Nat) (hwf : WF s) :
    load_memory f (save_memory t2 f c2 m2 (save_memory t1 f c1 m1 s)) = some c2 ∧
    ∃ v1, mem_version f (save_memory t1 f c1 m1 s) = some v1 ∧
      mem_version f (save_memory t2 f c2 m2 (save_memory t1 f c1 m1 s)) = some (v1 + 1) ∧
      ((save_memory t2 f c2 m2 (save_memory t1 f c1 m1 s)).history.countP
        (fun h => h.filename == f && h.content == c1 && h.version == v1)) = 1 := by
  have hwf1 : WF (save_memory t1 f c1 m1 s) := WF_save t1 f c1 m1 hwf
  obtain ⟨row1, hrow1, hc1, hfn1, hcount⟩ :
      ∃ row1, find_mem f (save_memory t1 f c1 m1 s) = some row1 ∧
        row1.content = c1 ∧ row1.filename = f ∧
        ((save_memory t1 f c1 m1 s).history.countP
          (fun h => h.filename == f && h.content == c1 && h.version == row1.version)) = 0 := by
    cases hfm : find_mem f s with
    | none =>
      refine ⟨⟨f, c1, metadataJson m1, 1, t1, t1⟩,
        find_mem_save_fresh hfm t1 c1 m1, rfl, rfl, ?_⟩
      rw [save_history_fresh hfm t1 c1 m1, List.countP_eq_zero]
      intro h2 hh2
      have hnone := find_mem_none hfm
      intro hp
      simp only [Bool.and_eq_true, beq_iff_eq] at hp
      obtain ⟨m2, hm2, hfn2, _⟩ := hwf.2 h2 hh2
      exact hnone m2 hm2 (hfn2.trans hp.1.1)
    | some row0 =>
      refine ⟨_, find_mem_save_update hfm t1 c1 m1, rfl, (find_mem_some hfm).2, ?_⟩
      rw [save_history_update hfm hwf.1 t1 c1 m1, List.countP_append]
      have h1 : (s.history.countP
          (fun h => h.filename == f && h.content == c1 && h.version == row0.version + 1)) = 0 := by
        rw [List.countP_eq_zero]
        intro h2 hh2 hp
        simp only [Bool.and_eq_true, beq_iff_eq] at hp
        have := WF_history_version_lt hwf hfm h2 hh2 hp.1.1
        omega
      have h2 : (List.countP
          (fun h => h.filename == f && h.content == c1 && h.version == row0.version + 1)
          ([⟨row0.filename, row0.content, row0.version, t1, row0.metadata⟩] : List HistoryRow)) = 0 := by
        simp [List.countP_cons]
      simp only at h1 h2 ⊢
      omega
  refine ⟨?_, row1.version, ?_, ?_, ?_⟩
  · rw [load_memory, find_mem_save_update hrow1 t2 c2 m2]
    rfl
  · rw [mem_version, hrow1]
    rfl
  · rw [mem_version, find_mem_save_update hrow1 t2 c2 m2]
    rfl
  · rw [save_history_update hrow1 hwf1.1 t2 c2 m2, List.countP_append, hcount]
    simp [List.countP_cons, hfn1, hc1]

/-- Witness for C1 at the concrete scenario of spec §8. -/
theorem save_save_version_and_history_witness :
    WF dbInit ∧
    (load_memory "a.md" (save_memory 1 "a.md" "world" none
        (save_memory 0 "a.md" "hello" none dbInit)) = some "world" ∧
    ∃ v1, mem_version "a.md" (save_memory 0 "a.md" "hello" none dbInit) = some v1 ∧
      mem_version "a.md" (save_memory 1 "a.md" "world" none
        (save_memory 0 "a.md" "hello" none dbInit)) = some (v1 + 1) ∧
      ((save_memory 1 "a.md" "world" none
          (save_memory 0 "a.md" "hello" none dbInit)).history.countP
        (fun h => h.filename == "a.md" && h.content == "hello" && h.version == v1)) = 1) :=
  ⟨WF_dbInit,
   save_save_version_and_history dbInit "a.md" "hello" "world" none none 0 1 WF_dbInit⟩

/-- C7: `delete_memory` removes the live row and every history row of the
filename, returns `true` exactly when a live row existed, and afterwards
`load_memory` is absent and `get_memory_history` is empty (for any limit);
the DuckDB count-based variant computes the same state and the same result. -/
theorem delete_removes_live_and_history (s : DBState) (f : String) (lim : Nat) :
    ((delete_memory f s).2 = true ↔ ∃ m ∈ s.memories, m.filename = f) ∧
    load_memory f (delete_memory f s).1 = none ∧
    get_memory_history f lim (delete_memory f s).1 = [] ∧
    (delete_memory f s).1.memories = s.memories.filter (fun m => m.filename != f) ∧
    (delete_memory f s).1.history = s.history.filter (fun h => h.filename != f) ∧
    duckdb_delete_memory f s = delete_memory f s := by
  refine ⟨?_, ?_, ?_, rfl, rfl, ?_⟩
  · simp only [delete_memory, decide_eq_true_eq, List.countP_pos_iff, Bool.and_eq_true,
      beq_iff_eq]
  · rw [load_memory]
    have : find_mem f (delete_memory f s).1 = none := by
      rw [find_mem, List.find?_eq_none]
      intro m hm
      have := (List.mem_filter.mp hm).2
      simpa using this
    rw [this]
    rfl
  · rw [get_memory_history]
    have : (delete_memory f s).1.history.filter (fun h => h.filename == f) = [] := by
      rw [List.filter_eq_nil_iff]
      intro h2 hh2
      have := (List.mem_filter.mp hh2).2
      simpa using this
    rw [this]
    simp [get_memory_history]
  · rw [duckdb_delete_memory, delete_memory]
    have hca : ((s.memories.filter (fun m => m.filename != f)).countP
        (fun m => m.filename == f)) = 0 := by
      rw [List.countP_eq_zero]
      intro m hm
      have := (List.mem_filter.mp hm).2
      simpa using this
    simp only [hca]

/-- C10: saving with the empty metadata dict stores NULL metadata, exactly as
saving with no metadata at all; `get_memory_metadata` then returns only the
system fields `created_at`, `updated_at`, `version`. -/
theorem empty_metadata_stored_as_none (s : DBState) (f c : String) (now : Nat) :
    save_memory now f c (some []) s = save_memory now f c none s ∧
    (get_memory_metadata f (save_memory now f c none s)).map (fun l => l.map Prod.fst) =
      some ["created_at", "updated_at", "version"] := by
  refine ⟨rfl, ?_⟩
  cases hfm : find_mem f s with
  | none =>
    rw [get_memory_metadata, find_mem_save_fresh hfm now c none]
    simp [dict_update, metadataJson]
  | some row =>
    rw [get_memory_metadata, find_mem_save_update hfm now c none]
    simp [dict_update, metadataJson]

/-- C8: the factory raises `ConfigurationError` for every backend type string
outside the supported set {sqlite, duckdb, mariadb, mysql} instead of
returning an instance. -/
theorem unsupported_kind_raises_configuration_error (kind : String)
    (h1 : kind ≠ "sqlite") (h2 : kind ≠ "duckdb") (h3 : kind ≠ "mariadb")
    (h4 : kind ≠ "mysql") :
    create_database kind = .error .configuration := by
  simp [create_database, h1, h2, h3, h4]

/-- Witness for C8 at the unsupported kind "postgres". -/
theorem unsupported_kind_raises_configuration_error_witness :
    "postgres" ≠ "sqlite" ∧ create_database "postgres" = .error .configuration :=
  ⟨by decide,
   unsupported_kind_raises_configuration_error "postgres"
     (by decide) (by decide) (by decide) (by decide)⟩

/-- C5: for a filename present only on the filesystem mirror, the facade
`read_memory` returns the mirror's content and first writes it into the
database via `save_memory` (sync-back), so a subsequent direct
`load_memory` on the adapter also returns it. -/
theorem fs_only_read_syncs_back (db : DBState) (fs : FS) (f c : String) (now : Nat)
    (hdb : load_memory f db = none) (hfs : fs_read_file fs f = some c) :
    read_memory db fs f now = (save_memory now f c none db, .value c) ∧
    load_memory f (save_memory now f c none db) = some c := by
  constructor
  · rw [read_memory, hdb, hfs]
  · have hfm : find_mem f db = none := by
      rw [load_memory] at hdb
      cases h : find_mem f db with
      | none => rfl
      | some row => rw [h] at hdb; simp at hdb
    rw [load_memory, find_mem_save_fresh hfm now c none]
    rfl

/-- Witness for C5: `a.md` lives only on the mirror; reading it syncs it back. -/
theorem fs_only_read_syncs_back_witness :
    load_memory "a.md" dbInit = none ∧
    fs_read_file [("a.md", "hi")] "a.md" = some "hi" ∧
    (read_memory dbInit [("a.md", "hi")] "a.md" 5 =
        (save_memory 5 "a.md" "hi" none dbInit, .value "hi") ∧
      load_memory "a.md" (save_memory 5 "a.md" "hi" none dbInit) = some "hi") :=
  ⟨rfl, rfl,
   fs_only_read_syncs_back dbInit [("a.md", "hi")] "a.md" "hi" 5 rfl rfl⟩

/-- C6 counterexample: with `a.md` absent from both tiers, the facade read
returns the ordinary string value `Memory file 'a.md' not found` — it does not
raise (or otherwise signal) `MemoryNotFoundError`. -/
theorem read_miss_returns_value_not_exception :
    (read_memory dbInit [] "a.md" 0).2 = ReadOutcome.value (notFoundMessage "a.md") ∧
    (read_memory dbInit [] "a.md" 0).2 ≠ ReadOutcome.raised SynapseExc.memoryNotFound ∧
    notFoundMessage "a.md" = "Memory file \x27a.md\x27 not found" := by
  decide

/-- C6 amended: when the filename is absent from both the database and the
filesystem mirror, the facade read leaves the database unchanged and returns
the not-found message as an ordinary string value (no exception). -/
theorem read_miss_both_tiers_returns_message (db : DBState) (fs : FS) (f : String)
    (now : Nat) (hdb : load_memory f db = none) (hfs : fs_read_file fs f = none) :
    read_memory db fs f now = (db, .value (notFoundMessage f)) := by
  rw [read_memory, hdb, hfs]

/-- Witness for the amended C6 on an empty database and empty mirror. -/
theorem read_miss_both_tiers_returns_message_witness :
    load_memory "a.md" dbInit = none ∧
    read_memory dbInit [] "a.md" 0 = (dbInit, .value (notFoundMessage "a.md")) :=
  ⟨rfl, read_miss_both_tiers_returns_message dbInit [] "a.md" 0 rfl rfl⟩

theorem nil_mem_sufList (cs : List Char) : [] ∈ sufList cs := by
  induction cs with
  | nil => simp [sufList]
  | cons c cs ih => simp [sufList, ih]

theorem self_mem_sufList (cs : List Char) : cs ∈ sufList cs := by
  cases cs <;> simp [sufList]

theorem likeMatch_single_pct (cs : List Char) : likeMatch ['%'] cs = true := by
  have h : likeMatch ['%'] cs = (sufList cs).any (fun suf => likeMatch [] suf) := rfl
  rw [h, List.any_eq_true]
  exact ⟨[], nil_mem_sufList cs, rfl⟩

theorem like_contains_empty_query (c : String) : like_contains "" c = true := by
  have h : like_contains "" c =
      (sufList c.data).any (fun suf => likeMatch ['%'] suf) := rfl
  rw [h, List.any_eq_true]
  exact ⟨c.data, self_mem_sufList c.data, likeMatch_single_pct c.data⟩

/-- C9: the empty query LIKE-matches every content (`LIKE '%%'`), so
`search_memories ""` returns every live record, ordered by filename. -/
theorem empty_query_returns_all (s : DBState) :
    search_memories "" s =
      (s.memories.insertionSort byFilename).map (fun m => (m.filename, m.content)) ∧
    (search_memories "" s).length = s.memories.length := by
  have hf : s.memories.filter (fun m => like_contains "" m.content) = s.memories := by
    rw [List.filter_eq_self]
    intro m _
    exact like_contains_empty_query m.content
  constructor
  · rw [search_memories, hf]
  · rw [search_memories, hf, List.length_map, List.length_insertionSort]

/-- C4 counterexample: SQLite evaluates `LIKE` ASCII-case-insensitively, so
`search_memories "HELLO"` returns the record whose content is `"hello"`,
although `"HELLO"` is not a case-sensitive substring of `"hello"`. -/
theorem search_is_not_case_sensitive :
    search_memories "HELLO" ⟨[⟨"a.md", "hello", none, 1, 0, 0⟩], []⟩ =
      [("a.md", "hello")] ∧
    spec_contains "hello" "HELLO" = false := by
  decide

/-- C4 amended: `search_memories q` returns exactly the live records whose
content matches the SQL LIKE pattern `%q%` (in SQLite: ASCII letters compare
case-insensitively and `%`/`_` in `q` act as wildcards), projected to
(filename, content); history rows never influence the result, and the results
are ordered filename-lexicographically. -/
theorem search_matches_like_on_live_content (s : DBState) (q fn ct : String) :
    ((fn, ct) ∈ search_memories q s ↔
      ∃ m ∈ s.memories, like_contains q m.content = true ∧
        m.filename = fn ∧ m.content = ct) ∧
    List.Pairwise (fun a b : String × String => strLe a.1 b.1 = true)
      (search_memories q s) ∧
    ∀ hist2 : List HistoryRow,
      search_memories q ⟨s.memories, hist2⟩ = search_memories q s := by
  refine ⟨?_, ?_, fun _ => rfl⟩
  · rw [search_memories]
    simp only [List.mem_map, List.mem_insertionSort, List.mem_filter]
    constructor
    · rintro ⟨m, ⟨hm, hlike⟩, hproj⟩
      rw [Prod.mk.injEq] at hproj
      exact ⟨m, hm, hlike, hproj.1, hproj.2⟩
    · rintro ⟨m, hm, hlike, hfn, hct⟩
      exact ⟨m, ⟨hm, hlike⟩, by rw [hfn, hct]⟩
  · rw [search_memories]
    have hs := List.sorted_insertionSort byFilename
      (s.memories.filter (fun m => like_contains q m.content))
    refine List.Pairwise.map _ ?_ hs
    intro a b hab
    exact hab

/-- C2 counterexample: `MariaDBDatabase.save_memory` re-raises on failure but
never calls rollback.  On a clean connection holding `a.md` at version 1, a
fault at the live-row UPDATE leaves the history snapshot pending on the
connection (the tables the connection sees are not as they were before the
call), and a later successful save of another filename commits that orphan
snapshot, durably breaking the version invariant. -/
theorem mariadb_save_failure_not_rolled_back :
    (mariadb_save_memory_f (some 2) 1 "a.md" "world" none
      ⟨⟨[⟨"a.md", "hello", none, 1, 0, 0⟩], []⟩,
       ⟨[⟨"a.md", "hello", none, 1, 0, 0⟩], []⟩⟩).2 = .error () ∧
    (mariadb_save_memory_f (some 2) 1 "a.md" "world" none
      ⟨⟨[⟨"a.md", "hello", none, 1, 0, 0⟩], []⟩,
       ⟨[⟨"a.md", "hello", none, 1, 0, 0⟩], []⟩⟩).1.pending ≠
      ⟨[⟨"a.md", "hello", none, 1, 0, 0⟩], []⟩ ∧
    (mariadb_save_memory_f none 2 "b.md" "x" none
      (mariadb_save_memory_f (some 2) 1 "a.md" "world" none
        ⟨⟨[⟨"a.md", "hello", none, 1, 0, 0⟩], []⟩,
         ⟨[⟨"a.md", "hello", none, 1, 0, 0⟩], []⟩⟩).1).1.committed.history =
      [⟨"a.md", "hello", 1, 1, none⟩] ∧
    ¬ versionInvariant
      (mariadb_save_memory_f none 2 "b.md" "x" none
        (mariadb_save_memory_f (some 2) 1 "a.md" "world" none
          ⟨⟨[⟨"a.md", "hello", none, 1, 0, 0⟩], []⟩,
           ⟨[⟨"a.md", "hello", none, 1, 0, 0⟩], []⟩⟩).1).1.committed := by
  refine ⟨rfl, by decide, rfl, ?_⟩
  rw [versionInvariant]
  decide

/-- C2 amended: on any failure the SQLite adapter (DuckDB's handler is the
same) rolls the connection back and re-raises, leaving the connection exactly
at the pre-call state; the MariaDB adapter also re-raises (it never swallows
the fault, and never commits, so the durable state is unchanged) but does not
roll back, so the failed transaction's earlier statements stay pending on the
connection. -/
theorem save_failure_rollback_behavior (s : DBState) (fa : Option Nat) (now : Nat)
    (f c : String) (md : Option MetaMap) :
    (∀ conn2 e, sqlite_save_memory_f fa now f c md ⟨s, s⟩ = (conn2, .error e) →
      conn2 = ⟨s, s⟩) ∧
    (∀ conn2 r, sqlite_save_memory_f fa now f c md ⟨s, s⟩ = (conn2, r) →
      r = .ok true ∨ r = .error ()) ∧
    (∀ conn2 e, mariadb_save_memory_f fa now f c md ⟨s, s⟩ = (conn2, .error e) →
      conn2.committed = s) := by
  refine ⟨?_, ?_, ?_⟩
  · intro conn2 e h
    rw [sqlite_save_memory_f] at h
    split at h
    · rw [Prod.mk.injEq] at h
      exact h.1.symm
    · split at h
      · split at h
        · rw [Prod.mk.injEq] at h
          exact h.1.symm
        · split at h
          · rw [Prod.mk.injEq] at h
            exact h.1.symm
          · split at h
            · rw [Prod.mk.injEq] at h
              exact h.1.symm
            · rw [Prod.mk.injEq] at h
              exact absurd h.2 (by simp)
      · split at h
        · rw [Prod.mk.injEq] at h
          exact h.1.symm
        · split at h
          · rw [Prod.mk.injEq] at h
            exact h.1.symm
          · rw [Prod.mk.injEq] at h
            exact absurd h.2 (by simp)
  · intro conn2 r h
    rw [sqlite_save_memory_f] at h
    split at h
    · rw [Prod.mk.injEq] at h
      right; exact h.2.symm
    · split at h
      · split at h
        · rw [Prod.mk.injEq] at h
          right; exact h.2.symm
        · split at h
          · rw [Prod.mk.injEq] at h
            right; exact h.2.symm
          · split at h
            · rw [Prod.mk.injEq] at h
              right; exact h.2.symm
            · rw [Prod.mk.injEq] at h
              left; exact h.2.symm
      · split at h
        · rw [Prod.mk.injEq] at h
          right; exact h.2.symm
        · split at h
          · rw [Prod.mk.injEq] at h
            right; exact h.2.symm
          · rw [Prod.mk.injEq] at h
            left; exact h.2.symm
  · intro conn2 e h
    rw [mariadb_save_memory_f] at h
    split at h
    · rw [Prod.mk.injEq] at h
      rw [← h.1]
    · split at h
      · split at h
        · rw [Prod.mk.injEq] at h
          rw [← h.1]
        · split at h
          · rw [Prod.mk.injEq] at h
            rw [← h.1]
          · split at h
            · rw [Prod.mk.injEq] at h
              rw [← h.1]
            · rw [Prod.mk.injEq] at h
              exact absurd h.2 (by simp)
      · split at h
        · rw [Prod.mk.injEq] at h
          rw [← h.1]
        · split at h
          · rw [Prod.mk.injEq] at h
            rw [← h.1]
          · rw [Prod.mk.injEq] at h
            exact absurd h.2 (by simp)

/-- Witness for the amended C2: a failure at the UPDATE statement on a clean
SQLite connection holding one row leaves the connection unchanged. -/
theorem save_failure_rollback_behavior_witness :
    sqlite_save_memory_f (some 2) 1 "a.md" "world" none
      ⟨⟨[⟨"a.md", "hello", none, 1, 0, 0⟩], []⟩,
       ⟨[⟨"a.md", "hello", none, 1, 0, 0⟩], []⟩⟩ =
      (⟨⟨[⟨"a.md", "hello", none, 1, 0, 0⟩], []⟩,
        ⟨[⟨"a.md", "hello", none, 1, 0, 0⟩], []⟩⟩, .error ()) ∧
    (⟨⟨[⟨"a.md", "hello", none, 1, 0, 0⟩], []⟩,
      ⟨[⟨"a.md", "hello", none, 1, 0, 0⟩], []⟩⟩ : Conn) =
      ⟨⟨[⟨"a.md", "hello", none, 1, 0, 0⟩], []⟩,
       ⟨[⟨"a.md", "hello", none, 1, 0, 0⟩], []⟩⟩ :=
  ⟨by decide,
   (save_failure_rollback_behavior ⟨[⟨"a.md", "hello", none, 1, 0, 0⟩], []⟩
      (some 2) 1 "a.md" "world" none).1
     ⟨⟨[⟨"a.md", "hello", none, 1, 0, 0⟩], []⟩,
      ⟨[⟨"a.md", "hello", none, 1, 0, 0⟩], []⟩⟩ () (by decide)⟩

end Synapse

